import Mathlib

/-!
Montgomery multiplication over GMP integers (`src/main.cpp`).

A shallow embedding of the class `Mtgy` of `src/main.cpp`.  `mpz_class` values are
unbounded signed integers, modelled by `Int`.  The GMP primitives the class calls are
modelled after the GMP manual:

* `%` on `mpz_class` is `mpz_tdiv_r` (remainder of the division truncating towards
  zero, sign of the dividend): `Int.tmod`;
* `mpz_mod_2exp` is the non-negative remainder modulo a power of two;
* `>>=` on `mpz_class` is `mpz_fdiv_q_2exp` (flooring shift): `>>>` on `Int`;
* `mpz_sizeinbase (_, 2)`, `mpz_setbit`, `mpz_invert`, `mpz_divexact` as below.
-/

namespace MtgyGMP

/-! ## GMP primitives -/

/-- Number of binary digits of `n`, by repeated halving; `fuel` bounds the number of
halvings (any `fuel ≥ n` is enough). -/
def bitsAux : Nat → Nat → Nat
  | 0, _ => 0
  | fuel + 1, n => if n = 0 then 0 else 1 + bitsAux fuel (n / 2)

/-- GMP `mpz_sizeinbase (op, 2)`: the number of bits of `|op|`; the GMP manual fixes the
result for `op = 0` to be `1`. -/
def mpz_sizeinbase2 (op : Int) : Nat :=
  if op = 0 then 1 else bitsAux op.natAbs op.natAbs

/-- GMP `mpz_setbit (rop, bit_index)`: set bit `bit_index` of `rop` (two's complement
semantics for negative `rop`). -/
def mpz_setbit (rop : Int) (bit_index : Nat) : Int :=
  Int.lor rop ((2 ^ bit_index : Nat) : Int)

/-- GMP `mpz_mod_2exp (r, t, k)`: `t` modulo `2^k`, always in `[0, 2^k)`. -/
def mpz_mod_2exp (t : Int) (k : Nat) : Int :=
  t % (2 : Int) ^ k

/-- Extended Euclid, the computation behind `mpz_gcdext`: from remainders `r0`, `r1`
with cofactors `s0`, `s1` it returns the last non-zero remainder and its cofactor.
`fuel` bounds the number of division steps. -/
def gcdextAux : Nat → Int → Int → Int → Int → Int × Int
  | 0, r0, s0, _, _ => (r0, s0)
  | fuel + 1, r0, s0, r1, s1 =>
    if r1 = 0 then (r0, s0)
    else gcdextAux fuel r1 s1 (r0 % r1) (s0 - r0 / r1 * s1)

/-- GMP `mpz_invert (rop, op1, op2)`: the inverse of `op1` modulo `op2`, normalised into
`[0, |op2|)`; `none` when no inverse exists (GMP then returns zero and leaves `rop`
unspecified) and when `op2 = 0` (behaviour undefined in GMP). -/
def mpz_invert (op1 op2 : Int) : Option Int :=
  if op2 = 0 then none
  else
    let m : Int := (op2.natAbs : Int)
    let gs := gcdextAux (op2.natAbs + 1) (op1 % m) 1 m 0
    if gs.1 = 1 then some (gs.2 % m) else none

/-- GMP `mpz_divexact (q, n, d)`: the quotient `n / d`, meaningful only when `d` divides
`n` exactly. -/
def mpz_divexact (n d : Int) : Int :=
  n.tdiv d

/-! ## The class `Mtgy` -/

/-- The data members of `class Mtgy`. -/
structure Mtgy where
  N : Int
  N_invert : Int
  R : Int
  R_invert : Int
  n_size : Nat
deriving DecidableEq

namespace Mtgy

/-- The constructor `Mtgy::Mtgy (mpz_class n)`.  `none` stands for the failure of
`assert(N%2==1)`.  `R` and `R_invert` start as `0` (member initialisers `R(0)`,
`R_invert()`); the return value of `mpz_invert` is ignored by the source, so a
missing inverse leaves `R_invert` at `0`. -/
def new (n : Int) : Option Mtgy :=
  if n.tmod 2 = 1 then
    let n_size := mpz_sizeinbase2 n
    let R := mpz_setbit 0 n_size
    let R_invert := (mpz_invert R n).getD 0
    -- N_invert = (R * R_invert - 1) / N
    let N_invert := R * R_invert
    let N_invert := N_invert - 1
    let N_invert := mpz_divexact N_invert n
    some { N := n, N_invert := N_invert, R := R, R_invert := R_invert, n_size := n_size }
  else none

/-- Method `Mtgy::redc (r, t)`; the returned value is the final `r`. -/
def redc (c : Mtgy) (t : Int) : Int :=
  let r := mpz_mod_2exp t c.n_size
  let r := r * c.N_invert
  let r := mpz_mod_2exp r c.n_size
  let r := r * c.N
  let r := r + t
  let r := r >>> c.n_size
  if r ≥ c.N then r - c.N else r

/-- Method `Mtgy::into (r, t)`: `r = t*R%N`. -/
def into (c : Mtgy) (t : Int) : Int :=
  (t * c.R).tmod c.N

/-- Method `Mtgy::escape (r, t)`: `r = t*R_invert%N`. -/
def escape (c : Mtgy) (t : Int) : Int :=
  (t * c.R_invert).tmod c.N

/-- Method `Mtgy::mul (r, a, b)`: `t = a*b; redc(r, t)`. -/
def mul (c : Mtgy) (a b : Int) : Int :=
  c.redc (a * b)

/-- The value held by `r` in `Mtgy::redc` after the second `mpz_mod_2exp`: the
multiplier `m = ((t mod 2^n_size) * N_invert) mod 2^n_size`. -/
def redc_m (c : Mtgy) (t : Int) : Int :=
  mpz_mod_2exp (mpz_mod_2exp t c.n_size * c.N_invert) c.n_size

/-- The value held by `r` in `Mtgy::redc` after `r >>= n_size`, just before the
comparison `r >= N`. -/
def redc_u (c : Mtgy) (t : Int) : Int :=
  (c.redc_m t * c.N + t) >>> c.n_size

end Mtgy

/-! ## The example driver and the helper `floor_log2` -/

/-- The loop `for (mpz_class i = 0; i < u; i++) mtgy.mul (rm, rm, am)` of
`pow_mod_example`, started at counter `i` with accumulator `rm`; `calls` counts the
calls of `mul` made so far.  Each iteration uses one unit of `fuel`; `none` means the
fuel ran out before the loop condition failed. -/
def pow_mod_loop (mtgy : Mtgy) (am u : Int) : Nat → Int → Int → Nat → Option (Int × Nat)
  | 0, i, rm, calls => if i < u then none else some (rm, calls)
  | fuel + 1, i, rm, calls =>
    if i < u then pow_mod_loop mtgy am u fuel (i + 1) (mtgy.mul rm am) (calls + 1)
    else some (rm, calls)

/-- The function `pow_mod_example (r, a, u, m)`, returning the final `r` together with
the number of calls of `mul`.  `none` stands for the failed assertion of the
constructor, or for a loop that needs more than `fuel` iterations. -/
def pow_mod_example_counted (fuel : Nat) (a u m : Int) : Option (Int × Nat) :=
  match Mtgy.new m with
  | none => none
  | some mtgy =>
    let am := mtgy.into a
    let rm := mtgy.into 1
    match pow_mod_loop mtgy am u fuel 0 rm 0 with
    | none => none
    | some (rm, calls) => some (mtgy.escape rm, calls)

/-- The function `pow_mod_example (r, a, u, m)`; the returned value is the final `r`. -/
def pow_mod_example (fuel : Nat) (a u m : Int) : Option Int :=
  (pow_mod_example_counted fuel a u m).map Prod.fst

/-- The function `floor_log2 (unsigned x)`: `x==1 ? 0 : 1 + floor_log2 (x >> 1)` on
32-bit unsigned values, the addition wrapping modulo `2^32`.  `fuel` bounds the depth
of the recursion; `none` means the recursion is deeper than `fuel`. -/
def floor_log2 : Nat → Nat → Option Nat
  | 0, _ => none
  | fuel + 1, x =>
    if x = 1 then some 0
    else (floor_log2 fuel (x >>> 1)).map (fun r => (1 + r) % 2 ^ 32)

/-! ## Facts about the GMP primitives -/

theorem bitsAux_zero (fuel : Nat) : bitsAux fuel 0 = 0 := by
  cases fuel <;> simp [bitsAux]

theorem bitsAux_bracket : ∀ (fuel n : Nat), n ≤ fuel → 0 < n →
    n < 2 ^ bitsAux fuel n ∧ 2 ^ bitsAux fuel n ≤ 2 * n := by
  intro fuel
  induction fuel with
  | zero => intro n h1 h2; omega
  | succ f ih =>
    intro n hle hpos
    have hn : n ≠ 0 := by omega
    simp only [bitsAux, hn, if_false]
    rcases Nat.eq_zero_or_pos (n / 2) with hz | hq
    · rw [hz, bitsAux_zero]
      have : n = 1 := by omega
      subst this
      simp
    · have hle2 : n / 2 ≤ f := by omega
      obtain ⟨h1, h2⟩ := ih (n / 2) hle2 hq
      rw [Nat.pow_add, Nat.pow_one]
      constructor <;> omega

theorem mpz_setbit_zero (k : Nat) : mpz_setbit 0 k = (2 : Int) ^ k := by
  have h : (0 : Int) = ((0 : Nat) : Int) := rfl
  unfold mpz_setbit
  rw [h]
  show (((0 : Nat) ||| 2 ^ k : Nat) : Int) = (2 : Int) ^ k
  rw [Nat.zero_or]
  push_cast
  rfl

theorem mpz_mod_2exp_nonneg (t : Int) (k : Nat) : 0 ≤ mpz_mod_2exp t k :=
  Int.emod_nonneg _ (by positivity)

theorem mpz_mod_2exp_lt (t : Int) (k : Nat) : mpz_mod_2exp t k < (2 : Int) ^ k :=
  Int.emod_lt_of_pos _ (by positivity)

theorem emod_unique {x r n q : Int} (h0 : 0 ≤ r) (h1 : r < n) (h : x = r + n * q) :
    x % n = r := by
  subst h
  rw [Int.add_mul_emod_self_left]
  exact Int.emod_eq_of_lt h0 h1

theorem gcdextAux_spec (a m : Int) : ∀ (fuel : Nat) (r0 s0 r1 s1 : Int),
    0 ≤ r0 → 0 ≤ r1 → r1 < fuel → IsCoprime r0 r1 →
    s0 * a ≡ r0 [ZMOD m] → s1 * a ≡ r1 [ZMOD m] →
    (gcdextAux fuel r0 s0 r1 s1).1 = 1 ∧ (gcdextAux fuel r0 s0 r1 s1).2 * a ≡ 1 [ZMOD m] := by
  intro fuel
  induction fuel with
  | zero => intro r0 s0 r1 s1 _ h1 h2; simp at h2; omega
  | succ f ih =>
    intro r0 s0 r1 s1 h0 h1 hf hco hs0 hs1
    unfold gcdextAux
    by_cases hz : r1 = 0
    · simp only [hz, if_true]
      subst hz
      have hu : IsUnit r0 := isCoprime_zero_right.mp hco
      have h1 : r0 = 1 := by
        rcases Int.isUnit_iff.mp hu with h | h
        · exact h
        · omega
      subst h1
      exact ⟨rfl, hs0⟩
    · simp only [hz, if_false]
      have hpos : 0 < r1 := lt_of_le_of_ne h1 (Ne.symm hz)
      have hdef : r0 % r1 = r0 - r0 / r1 * r1 := by
        have := Int.emod_add_ediv r0 r1
        linarith [mul_comm r1 (r0 / r1)]
      apply ih
      · exact h1
      · exact Int.emod_nonneg _ hz
      · have := Int.emod_lt_of_pos r0 hpos
        push_cast at hf
        omega
      · rw [hdef]
        have h2 : IsCoprime (r0 + (-(r0 / r1)) * r1) r1 := hco.add_mul_right_left _
        have h3 : r0 + (-(r0 / r1)) * r1 = r0 - r0 / r1 * r1 := by ring
        rw [h3] at h2
        exact h2.symm
      · exact hs1
      · rw [hdef]
        have h4 : (s0 - r0 / r1 * s1) * a = s0 * a - r0 / r1 * (s1 * a) := by ring
        rw [h4]
        exact hs0.sub (hs1.mul_left _)

theorem mpz_invert_spec (x n : Int) (hn : 0 < n) (hco : IsCoprime x n) :
    ∃ v, mpz_invert x n = some v ∧ 0 ≤ v ∧ v < n ∧ x * v ≡ 1 [ZMOD n] := by
  have hne : n ≠ 0 := ne_of_gt hn
  have habs : ((n.natAbs : Nat) : Int) = n := Int.natAbs_of_nonneg hn.le
  have hco2 : IsCoprime (x % n) n := by
    have hdef : x % n = x + (-(x / n)) * n := by
      have := Int.emod_add_ediv x n
      linarith [mul_comm n (x / n)]
    rw [hdef]
    exact hco.add_mul_right_left _
  have key := gcdextAux_spec x n (n.natAbs + 1) (x % n) 1 n 0
    (Int.emod_nonneg _ hne) hn.le (by rw [Nat.cast_succ, habs]; exact lt_add_one n) hco2
    (by rw [one_mul]; exact (Int.mod_modEq x n).symm)
    (by rw [zero_mul]; exact (Int.emod_self).symm)
  refine ⟨(gcdextAux (n.natAbs + 1) (x % n) 1 n 0).2 % n, ?_, Int.emod_nonneg _ hne,
    Int.emod_lt_of_pos _ hn, ?_⟩
  · simp only [mpz_invert, hne, if_false, habs, key.1, if_true]
  · have h1 : (gcdextAux (n.natAbs + 1) (x % n) 1 n 0).2 % n * x ≡ 1 [ZMOD n] :=
      ((Int.mod_modEq _ n).mul_right x).trans key.2
    rw [mul_comm]
    exact h1

/-! ## The constructed context -/

/-- What the constructor establishes for an odd modulus `n > 0`. -/
structure Valid (c : Mtgy) (n : Int) : Prop where
  hN : c.N = n
  odd : n % 2 = 1
  pos : 0 < n
  hsize : c.n_size = mpz_sizeinbase2 n
  hR : c.R = (2 : Int) ^ c.n_size
  hi : n < (2 : Int) ^ c.n_size
  lo : (2 : Int) ^ c.n_size ≤ 2 * n
  inv_nonneg : 0 ≤ c.R_invert
  inv_lt : c.R_invert < n
  bezout : c.R * c.R_invert - c.N * c.N_invert = 1

theorem isCoprime_two_pow_of_odd (n : Int) (k : Nat) (hodd : n % 2 = 1) :
    IsCoprime ((2 : Int) ^ k) n := by
  apply IsCoprime.pow_left
  refine ⟨-(n / 2), 1, ?_⟩
  have := Int.emod_add_ediv n 2
  linarith

theorem sizeinbase2_bracket (n : Int) (hpos : 0 < n) :
    n < (2 : Int) ^ mpz_sizeinbase2 n ∧ (2 : Int) ^ mpz_sizeinbase2 n ≤ 2 * n := by
  have hne : n ≠ 0 := ne_of_gt hpos
  have habs : ((n.natAbs : Nat) : Int) = n := Int.natAbs_of_nonneg hpos.le
  have hnat : 0 < n.natAbs := Int.natAbs_pos.mpr hne
  obtain ⟨h1, h2⟩ := bitsAux_bracket n.natAbs n.natAbs le_rfl hnat
  simp only [mpz_sizeinbase2, hne, if_false]
  have h1z : ((n.natAbs : Nat) : Int) < ((2 ^ bitsAux n.natAbs n.natAbs : Nat) : Int) :=
    Int.ofNat_lt.mpr h1
  have h2z : ((2 ^ bitsAux n.natAbs n.natAbs : Nat) : Int) ≤ ((2 * n.natAbs : Nat) : Int) :=
    Int.ofNat_le.mpr h2
  rw [habs] at h1z
  push_cast at h1z h2z
  rw [abs_of_pos hpos] at h2z
  exact ⟨h1z, h2z⟩

theorem new_spec (n : Int) (hodd : n % 2 = 1) (hpos : 0 < n) :
    ∃ c, Mtgy.new n = some c ∧ Valid c n := by
  have hne : n ≠ 0 := ne_of_gt hpos
  have ht : n.tmod 2 = 1 := by
    rw [Int.tmod_eq_emod hpos.le (by decide)]
    exact hodd
  obtain ⟨hhi, hlo⟩ := sizeinbase2_bracket n hpos
  obtain ⟨v, hv, hv0, hv1, hmod⟩ :=
    mpz_invert_spec ((2 : Int) ^ mpz_sizeinbase2 n) n hpos
      (isCoprime_two_pow_of_odd n _ hodd)
  obtain ⟨q, hq⟩ : n ∣ (2 : Int) ^ mpz_sizeinbase2 n * v - 1 := by
    have := hmod.symm.dvd
    exact this
  have hdiv : mpz_divexact ((2 : Int) ^ mpz_sizeinbase2 n * v - 1) n = q := by
    unfold mpz_divexact
    rw [hq]
    exact Int.mul_tdiv_cancel_left q hne
  refine ⟨{ N := n, N_invert := q, R := (2 : Int) ^ mpz_sizeinbase2 n, R_invert := v,
             n_size := mpz_sizeinbase2 n }, ?_, ?_⟩
  · simp only [Mtgy.new, ht, if_true, mpz_setbit_zero, hv, Option.getD_some, hdiv]
  · exact
      { hN := rfl
        odd := hodd
        pos := hpos
        hsize := rfl
        hR := rfl
        hi := hhi
        lo := hlo
        inv_nonneg := hv0
        inv_lt := hv1
        bezout := by
          show (2 : Int) ^ mpz_sizeinbase2 n * v - n * q = 1
          linarith }

theorem Valid.R_pos {c : Mtgy} {n : Int} (hv : Valid c n) : 0 < c.R := by
  rw [hv.hR]; positivity

theorem Valid.R_mul_inv {c : Mtgy} {n : Int} (hv : Valid c n) :
    c.R * c.R_invert ≡ 1 [ZMOD n] := by
  have h := hv.bezout
  rw [hv.hN] at h
  have h2 : c.R * c.R_invert = 1 + n * c.N_invert := by linarith
  rw [h2]
  show (1 + n * c.N_invert) % n = 1 % n
  rw [Int.add_mul_emod_self_left]

theorem Valid.into_eq {c : Mtgy} {n : Int} (hv : Valid c n) {t : Int} (ht : 0 ≤ t) :
    c.into t = (t * c.R) % n := by
  unfold Mtgy.into
  rw [hv.hN]
  exact Int.tmod_eq_emod (mul_nonneg ht hv.R_pos.le) hv.pos.le

theorem Valid.escape_eq {c : Mtgy} {n : Int} (hv : Valid c n) {t : Int} (ht : 0 ≤ t) :
    c.escape t = (t * c.R_invert) % n := by
  unfold Mtgy.escape
  rw [hv.hN]
  exact Int.tmod_eq_emod (mul_nonneg ht hv.inv_nonneg) hv.pos.le

/-- The sum shifted in `redc` is a multiple of `R`, and the shift returns the exact
quotient. -/
theorem Valid.redc_shift {c : Mtgy} {n : Int} (hv : Valid c n) (t : Int) :
    ∃ u, mpz_mod_2exp (mpz_mod_2exp t c.n_size * c.N_invert) c.n_size * c.N + t = c.R * u ∧
      (mpz_mod_2exp (mpz_mod_2exp t c.n_size * c.N_invert) c.n_size * c.N + t) >>> c.n_size
        = u := by
  have hR := hv.hR
  have hRpos := hv.R_pos
  have hbez := hv.bezout
  have hm : mpz_mod_2exp (mpz_mod_2exp t c.n_size * c.N_invert) c.n_size
      ≡ t * c.N_invert [ZMOD c.R] := by
    unfold mpz_mod_2exp
    rw [← hR]
    exact (Int.mod_modEq _ _).trans ((Int.mod_modEq t c.R).mul_right _)
  have h1 : mpz_mod_2exp (mpz_mod_2exp t c.n_size * c.N_invert) c.n_size * c.N + t
      ≡ t * c.N_invert * c.N + t [ZMOD c.R] := (hm.mul_right _).add_right _
  have h2 : t * c.N_invert * c.N + t = c.R * (t * c.R_invert) := by
    linear_combination (-t) * hbez
  have h3 : c.R ∣ mpz_mod_2exp (mpz_mod_2exp t c.n_size * c.N_invert) c.n_size * c.N + t := by
    apply (Int.modEq_zero_iff_dvd).mp
    refine h1.trans ?_
    rw [h2]
    exact (Int.modEq_zero_iff_dvd).mpr (dvd_mul_right _ _)
  obtain ⟨u, hu⟩ := h3
  refine ⟨u, hu, ?_⟩
  rw [Int.shiftRight_eq_div_pow, hu]
  push_cast
  rw [← hR]
  exact Int.mul_ediv_cancel_left u (ne_of_gt hRpos)

/-- On `0 ≤ t < N * R` the reduction `redc` computes `t * R_invert mod N`. -/
theorem Valid.redc_eq {c : Mtgy} {n : Int} (hv : Valid c n) {t : Int} (ht0 : 0 ≤ t)
    (ht1 : t < n * c.R) : c.redc t = (t * c.R_invert) % n := by
  obtain ⟨u, hu, hsh⟩ := hv.redc_shift t
  have hN := hv.hN
  have hpos := hv.pos
  have hRpos := hv.R_pos
  have hbez := hv.bezout
  have hm0 := mpz_mod_2exp_nonneg (mpz_mod_2exp t c.n_size * c.N_invert) c.n_size
  have hm1 := mpz_mod_2exp_lt (mpz_mod_2exp t c.n_size * c.N_invert) c.n_size
  rw [← hv.hR] at hm1
  unfold Mtgy.redc
  simp only [hsh]
  generalize mpz_mod_2exp (mpz_mod_2exp t c.n_size * c.N_invert) c.n_size = m at hu hm0 hm1
  clear hsh
  rw [hN] at hu hbez ⊢
  have hu0 : 0 ≤ u := by
    by_contra hneg
    have : c.R * u < 0 := mul_neg_of_pos_of_neg hRpos (not_le.mp hneg)
    have : 0 ≤ m * n := mul_nonneg hm0 hpos.le
    linarith
  have hu1 : u < 2 * n := by
    by_contra hge
    have h1 : c.R * (2 * n) ≤ c.R * u := mul_le_mul_of_nonneg_left (not_lt.mp hge) hRpos.le
    have h2 : m * n < c.R * n := mul_lt_mul_of_pos_right hm1 hpos
    linarith
  have hcong : t * c.R_invert = u + n * (u * c.N_invert - m * c.R_invert) := by
    linear_combination c.R_invert * hu + u * hbez
  by_cases hge : u ≥ n
  · rw [if_pos hge]
    symm
    apply emod_unique (q := u * c.N_invert - m * c.R_invert + 1) (by linarith) (by linarith)
    rw [hcong]; ring
  · rw [if_neg hge]
    symm
    exact emod_unique hu0 (not_le.mp hge) hcong

/-! ## Truncated remainder -/

theorem neg_tmod_eq (a b : Int) : (-a).tmod b = -(a.tmod b) := by
  rw [Int.tmod_def, Int.tmod_def, Int.neg_tdiv]
  ring

theorem tmod_modEq (a b : Int) : a.tmod b ≡ a [ZMOD b] := by
  rw [Int.tmod_def]
  have h : a - b * a.tdiv b = a + b * (-(a.tdiv b)) := by ring
  rw [h]
  show (a + b * (-(a.tdiv b))) % b = a % b
  rw [Int.add_mul_emod_self_left]

theorem tmod_neg_range {a b : Int} (ha : a < 0) (hb : 0 < b) :
    -b < a.tmod b ∧ a.tmod b ≤ 0 := by
  have h1 : a.tmod b = -((-a).tmod b) := by
    rw [neg_tmod_eq, neg_neg]
  have h2 : 0 ≤ (-a).tmod b := Int.tmod_nonneg b (by linarith)
  have h3 : (-a).tmod b < b := Int.tmod_lt_of_pos (-a) hb
  rw [h1]
  constructor <;> linarith

theorem tmod_two_eq_one_iff (n : Int) : n.tmod 2 = 1 ↔ (n % 2 = 1 ∧ 0 < n) := by
  by_cases h : 0 ≤ n
  · rw [Int.tmod_eq_emod h (by decide)]
    omega
  · have hneg : n < 0 := not_le.mp h
    have := (tmod_neg_range hneg (b := 2) (by decide)).2
    omega

/-! ## Montgomery arithmetic on a constructed context -/

theorem Valid.inv_cancel {c : Mtgy} {n : Int} (hv : Valid c n) (z : Int) :
    ((z * c.R) % n * c.R_invert) % n = z % n := by
  have h1 : (z * c.R) % n * c.R_invert ≡ z * c.R * c.R_invert [ZMOD n] :=
    (Int.mod_modEq _ n).mul_right _
  have h2 : z * c.R * c.R_invert ≡ z * 1 [ZMOD n] := by
    rw [mul_assoc]
    exact hv.R_mul_inv.mul_left z
  rw [mul_one] at h2
  exact h1.trans h2

theorem Valid.into_range {c : Mtgy} {n : Int} (hv : Valid c n) {t : Int} (ht : 0 ≤ t) :
    0 ≤ c.into t ∧ c.into t < n := by
  rw [hv.into_eq ht]
  exact ⟨Int.emod_nonneg _ (ne_of_gt hv.pos), Int.emod_lt_of_pos _ hv.pos⟩

theorem Valid.escape_range {c : Mtgy} {n : Int} (hv : Valid c n) {t : Int} (ht : 0 ≤ t) :
    0 ≤ c.escape t ∧ c.escape t < n := by
  rw [hv.escape_eq ht]
  exact ⟨Int.emod_nonneg _ (ne_of_gt hv.pos), Int.emod_lt_of_pos _ hv.pos⟩

theorem Valid.escape_into {c : Mtgy} {n : Int} (hv : Valid c n) {t : Int} (ht : 0 ≤ t) :
    c.escape (c.into t) = t % n := by
  rw [hv.escape_eq (hv.into_range ht).1, hv.into_eq ht]
  exact hv.inv_cancel t

theorem Valid.mul_eq {c : Mtgy} {n : Int} (hv : Valid c n) {a b : Int}
    (ha0 : 0 ≤ a) (ha1 : a < n) (hb0 : 0 ≤ b) (hb1 : b < n) :
    c.mul a b = (a * b * c.R_invert) % n := by
  unfold Mtgy.mul
  apply hv.redc_eq (mul_nonneg ha0 hb0)
  have h1 : a * b ≤ n * b := mul_le_mul_of_nonneg_right ha1.le hb0
  have h2 : n * b < n * c.R := by
    apply mul_lt_mul_of_pos_left _ hv.pos
    have := hv.hi
    rw [← hv.hR] at this
    linarith
  linarith

theorem Valid.mul_range {c : Mtgy} {n : Int} (hv : Valid c n) {a b : Int}
    (ha0 : 0 ≤ a) (ha1 : a < n) (hb0 : 0 ≤ b) (hb1 : b < n) :
    0 ≤ c.mul a b ∧ c.mul a b < n := by
  rw [hv.mul_eq ha0 ha1 hb0 hb1]
  exact ⟨Int.emod_nonneg _ (ne_of_gt hv.pos), Int.emod_lt_of_pos _ hv.pos⟩

theorem Valid.mul_into {c : Mtgy} {n : Int} (hv : Valid c n) {x y : Int}
    (hx : 0 ≤ x) (hy : 0 ≤ y) :
    c.mul (c.into x) (c.into y) = (x * y * c.R) % n := by
  obtain ⟨hx0, hx1⟩ := hv.into_range hx
  obtain ⟨hy0, hy1⟩ := hv.into_range hy
  rw [hv.mul_eq hx0 hx1 hy0 hy1, hv.into_eq hx, hv.into_eq hy]
  have h1 : (x * c.R) % n * ((y * c.R) % n) ≡ (x * c.R) * (y * c.R) [ZMOD n] :=
    (Int.mod_modEq _ n).mul (Int.mod_modEq _ n)
  have h2 : (x * c.R) * (y * c.R) * c.R_invert = (x * y * c.R) * (c.R * c.R_invert) := by
    ring
  have h3 : (x * y * c.R) * (c.R * c.R_invert) ≡ (x * y * c.R) * 1 [ZMOD n] :=
    hv.R_mul_inv.mul_left _
  rw [mul_one] at h3
  have h4 := h1.mul_right c.R_invert
  rw [h2] at h4
  exact h4.trans h3

/-! ## The claims -/

/-- C1 (homomorphism). For every odd modulus `N > 0` and all `a`, `b` in `[0, N)`, the
constructor succeeds and `escape (mul (into a, into b))` equals `(a * b) mod N`. -/
theorem homomorphism_escape_mul_into (N a b : Int) (hodd : N % 2 = 1) (hpos : 0 < N)
    (ha0 : 0 ≤ a) (_ha1 : a < N) (hb0 : 0 ≤ b) (_hb1 : b < N) :
    ∃ c, Mtgy.new N = some c ∧ c.escape (c.mul (c.into a) (c.into b)) = (a * b) % N := by
  obtain ⟨c, hc, hv⟩ := new_spec N hodd hpos
  refine ⟨c, hc, ?_⟩
  have hne : N ≠ 0 := ne_of_gt hpos
  rw [hv.mul_into ha0 hb0, hv.escape_eq (Int.emod_nonneg _ hne)]
  exact hv.inv_cancel (a * b)

/-- Instance of C1 from the test table: `a = 7`, `b = 7`, `N = 13` gives `10`. -/
theorem homomorphism_escape_mul_into_witness :
    (13 : Int) % 2 = 1 ∧ (0 : Int) < 13 ∧
    ∃ c, Mtgy.new 13 = some c ∧ c.escape (c.mul (c.into 7) (c.into 7)) = 10 :=
  ⟨by decide, by decide,
   homomorphism_escape_mul_into 13 7 7 (by decide) (by decide) (by decide) (by decide)
     (by decide) (by decide)⟩

/-- C2 (round trip). For every odd modulus `N > 0` and every `a` in `[0, N)`, the
constructor succeeds and `escape (into a)` equals `a`. -/
theorem round_trip_escape_into (N a : Int) (hodd : N % 2 = 1) (hpos : 0 < N)
    (ha0 : 0 ≤ a) (ha1 : a < N) :
    ∃ c, Mtgy.new N = some c ∧ c.escape (c.into a) = a := by
  obtain ⟨c, hc, hv⟩ := new_spec N hodd hpos
  refine ⟨c, hc, ?_⟩
  rw [hv.escape_into ha0]
  exact Int.emod_eq_of_lt ha0 ha1

/-- Instance of C2 at `N = 13`, `a = 7`. -/
theorem round_trip_escape_into_witness :
    (13 : Int) % 2 = 1 ∧ (0 : Int) < 13 ∧
    ∃ c, Mtgy.new 13 = some c ∧ c.escape (c.into 7) = 7 :=
  ⟨by decide, by decide,
   round_trip_escape_into 13 7 (by decide) (by decide) (by decide) (by decide)⟩

/-- C3 (multiply represents the product). For every odd modulus `N > 0` and all
integers `x, y ≥ 0`, `mul (into x, into y)` equals `into ((x * y) mod N)`, which is
`(x * y * R) mod N` with `R = 2 ^ bitLength N`. -/
theorem mul_into_eq_into_mul (N x y : Int) (hodd : N % 2 = 1) (hpos : 0 < N)
    (hx : 0 ≤ x) (hy : 0 ≤ y) :
    ∃ c, Mtgy.new N = some c ∧ c.R = (2 : Int) ^ mpz_sizeinbase2 N ∧
      c.mul (c.into x) (c.into y) = c.into ((x * y) % N) ∧
      c.mul (c.into x) (c.into y) = (x * y * c.R) % N := by
  obtain ⟨c, hc, hv⟩ := new_spec N hodd hpos
  have hne : N ≠ 0 := ne_of_gt hpos
  refine ⟨c, hc, ?_, ?_, hv.mul_into hx hy⟩
  · rw [hv.hR, hv.hsize]
  · rw [hv.mul_into hx hy, hv.into_eq (Int.emod_nonneg _ hne)]
    exact ((Int.mod_modEq (x * y) N).mul_right c.R).symm

/-- Instance of C3 at `N = 13` with the unreduced operands `x = 20`, `y = 30`. -/
theorem mul_into_eq_into_mul_witness :
    (13 : Int) % 2 = 1 ∧ (0 : Int) < 13 ∧
    ∃ c, Mtgy.new 13 = some c ∧ c.R = (2 : Int) ^ mpz_sizeinbase2 13 ∧
      c.mul (c.into 20) (c.into 30) = c.into ((20 * 30) % 13) ∧
      c.mul (c.into 20) (c.into 30) = (20 * 30 * c.R) % 13 :=
  ⟨by decide, by decide,
   mul_into_eq_into_mul 13 20 30 (by decide) (by decide) (by decide) (by decide)⟩

/-- C4 (range invariant of multiply). For every odd modulus `N > 0` and all `a`, `b` in
`[0, N)`, the result of `mul (a, b)` lies in `[0, N)`. -/
theorem mul_result_in_range (N a b : Int) (hodd : N % 2 = 1) (hpos : 0 < N)
    (ha0 : 0 ≤ a) (ha1 : a < N) (hb0 : 0 ≤ b) (hb1 : b < N) :
    ∃ c, Mtgy.new N = some c ∧ 0 ≤ c.mul a b ∧ c.mul a b < N := by
  obtain ⟨c, hc, hv⟩ := new_spec N hodd hpos
  exact ⟨c, hc, hv.mul_range ha0 ha1 hb0 hb1⟩

/-- Instance of C4 at `N = 13`, `a = b = 12`. -/
theorem mul_result_in_range_witness :
    (13 : Int) % 2 = 1 ∧ (0 : Int) < 13 ∧
    ∃ c, Mtgy.new 13 = some c ∧ 0 ≤ c.mul 12 12 ∧ c.mul 12 12 < 13 :=
  ⟨by decide, by decide,
   mul_result_in_range 13 12 12 (by decide) (by decide) (by decide) (by decide)
     (by decide) (by decide)⟩

/-- C5 (Bezout identity of the construction). For every odd modulus `N > 0` the
constructed context satisfies `R * R_invert - N * N_invert = 1` over the integers; the
number `R * R_invert - 1` handed to the exact division has remainder zero modulo `N`,
and `N_invert` is its exact quotient. -/
theorem constructor_bezout (N : Int) (hodd : N % 2 = 1) (hpos : 0 < N) :
    ∃ c, Mtgy.new N = some c ∧ c.N = N ∧
      c.R * c.R_invert - c.N * c.N_invert = 1 ∧
      (c.R * c.R_invert - 1).tmod c.N = 0 ∧
      (c.R * c.R_invert - 1) % c.N = 0 ∧
      c.N_invert = mpz_divexact (c.R * c.R_invert - 1) c.N ∧
      c.N_invert * c.N = c.R * c.R_invert - 1 := by
  obtain ⟨c, hc, hv⟩ := new_spec N hodd hpos
  have hbez := hv.bezout
  have hne : c.N ≠ 0 := by rw [hv.hN]; exact ne_of_gt hpos
  have heq : c.R * c.R_invert - 1 = c.N * c.N_invert := by linarith
  have hdvd : c.N ∣ c.R * c.R_invert - 1 := ⟨c.N_invert, heq⟩
  refine ⟨c, hc, hv.hN, hbez, Int.tmod_eq_zero_of_dvd hdvd, Int.emod_eq_zero_of_dvd hdvd,
    ?_, by linarith⟩
  unfold mpz_divexact
  rw [heq]
  exact (Int.mul_tdiv_cancel_left c.N_invert hne).symm

/-- Instance of C5 at `N = 13`. -/
theorem constructor_bezout_witness :
    (13 : Int) % 2 = 1 ∧ (0 : Int) < 13 ∧
    ∃ c, Mtgy.new 13 = some c ∧ c.N = 13 ∧
      c.R * c.R_invert - c.N * c.N_invert = 1 ∧
      (c.R * c.R_invert - 1).tmod c.N = 0 ∧
      (c.R * c.R_invert - 1) % c.N = 0 ∧
      c.N_invert = mpz_divexact (c.R * c.R_invert - 1) c.N ∧
      c.N_invert * c.N = c.R * c.R_invert - 1 :=
  ⟨by decide, by decide, constructor_bezout 13 (by decide) (by decide)⟩

/-- C6, as stated, fails at `N = 1`: the constructor succeeds on the odd modulus `1`,
and `(R * R_invert) mod N` is `0`, not `1`. -/
theorem constructor_inverse_mod_one_counterexample :
    (1 : Int) % 2 = 1 ∧ (0 : Int) < 1 ∧
    ∃ c, Mtgy.new 1 = some c ∧ (c.R * c.R_invert) % c.N = 0 ∧
      (c.R * c.R_invert) % c.N ≠ 1 :=
  ⟨by decide, by decide, ⟨1, -1, 2, 0, 1⟩, by decide, by decide, by decide⟩

/-- C6 (amended). For every odd modulus `N > 0` the constructed context satisfies
`R * R_invert ≡ 1 (mod N)` with `R = 2 ^ bitLength N`, that is
`(R * R_invert) mod N = 1 mod N`; the remainder is `1` exactly when `N > 1`, and `0`
for `N = 1`. -/
theorem constructor_inverse_mod (N : Int) (hodd : N % 2 = 1) (hpos : 0 < N) :
    ∃ c, Mtgy.new N = some c ∧ c.N = N ∧ c.R = (2 : Int) ^ mpz_sizeinbase2 N ∧
      (c.R * c.R_invert) % c.N = 1 % N ∧
      (1 < N → (c.R * c.R_invert) % c.N = 1) ∧
      (N = 1 → (c.R * c.R_invert) % c.N = 0) := by
  obtain ⟨c, hc, hv⟩ := new_spec N hodd hpos
  have h : (c.R * c.R_invert) % c.N = 1 % N := by
    rw [hv.hN]
    exact hv.R_mul_inv
  refine ⟨c, hc, hv.hN, ?_, h, ?_, ?_⟩
  · rw [hv.hR, hv.hsize]
  · intro hgt
    rw [h]
    exact Int.emod_eq_of_lt (by decide) hgt
  · intro h1
    rw [h, h1]
    rfl

/-- Instance of the amended C6 at `N = 13`. -/
theorem constructor_inverse_mod_witness :
    (13 : Int) % 2 = 1 ∧ (0 : Int) < 13 ∧
    ∃ c, Mtgy.new 13 = some c ∧ c.N = 13 ∧ c.R = (2 : Int) ^ mpz_sizeinbase2 13 ∧
      (c.R * c.R_invert) % c.N = 1 % 13 ∧
      ((1 : Int) < 13 → (c.R * c.R_invert) % c.N = 1) ∧
      ((13 : Int) = 1 → (c.R * c.R_invert) % c.N = 0) :=
  ⟨by decide, by decide, constructor_inverse_mod 13 (by decide) (by decide)⟩

/-- C7 (fail-fast construction). For every integer `N` the check `N%2==1` of the
constructor fails, and no context is built, if and only if `N` is even or `N ≤ 0`;
construction succeeds exactly for odd `N > 0`. -/
theorem constructor_fails_iff (N : Int) :
    (N.tmod 2 = 1 ↔ (Odd N ∧ 0 < N)) ∧
    (Mtgy.new N = none ↔ (Even N ∨ N ≤ 0)) ∧
    ((Mtgy.new N).isSome = true ↔ (Odd N ∧ 0 < N)) := by
  have key : N.tmod 2 = 1 ↔ (Odd N ∧ 0 < N) := by
    rw [tmod_two_eq_one_iff, Int.odd_iff]
  have hsome : (Mtgy.new N).isSome = true ↔ N.tmod 2 = 1 := by
    unfold Mtgy.new
    by_cases h : N.tmod 2 = 1 <;> simp [h]
  have hnone : Mtgy.new N = none ↔ ¬ N.tmod 2 = 1 := by
    unfold Mtgy.new
    by_cases h : N.tmod 2 = 1 <;> simp [h]
  refine ⟨key, ?_, hsome.trans key⟩
  rw [hnone, key, Int.odd_iff, Int.even_iff]
  omega

/-- C8, as stated, fails for a negative argument: with `N = 13` (so `R = 16`),
`into (-1)` is `-3`, which is not in `[0, N)`; the representative of `-16` modulo `13`
in `[0, 13)` is `10`. -/
theorem into_negative_counterexample :
    (13 : Int) % 2 = 1 ∧ (0 : Int) < 13 ∧
    ∃ c, Mtgy.new 13 = some c ∧ c.into (-1) = -3 ∧ ¬ (0 ≤ c.into (-1)) ∧
      (-1 * c.R) % 13 = 10 :=
  ⟨by decide, by decide, ⟨13, 11, 16, 9, 4⟩, by decide, by decide, by decide, by decide⟩

/-- C8 (amended). For every odd modulus `N > 0` and every integer `t`, `into t` is
congruent to `t * R` modulo `N`; for `t ≥ 0` it is the representative in `[0, N)`,
that is `(t * R) mod N`, and for `t < 0` it is the representative in `(-N, 0]`. -/
theorem into_any_integer (N t : Int) (hodd : N % 2 = 1) (hpos : 0 < N) :
    ∃ c, Mtgy.new N = some c ∧ c.R = (2 : Int) ^ mpz_sizeinbase2 N ∧
      c.into t ≡ t * c.R [ZMOD N] ∧
      (0 ≤ t → 0 ≤ c.into t ∧ c.into t < N ∧ c.into t = (t * c.R) % N) ∧
      (t < 0 → -N < c.into t ∧ c.into t ≤ 0) := by
  obtain ⟨c, hc, hv⟩ := new_spec N hodd hpos
  refine ⟨c, hc, ?_, ?_, ?_, ?_⟩
  · rw [hv.hR, hv.hsize]
  · unfold Mtgy.into
    rw [hv.hN]
    exact tmod_modEq _ _
  · intro ht
    exact ⟨(hv.into_range ht).1, (hv.into_range ht).2, hv.into_eq ht⟩
  · intro ht
    unfold Mtgy.into
    rw [hv.hN]
    rcases eq_or_lt_of_le (Int.emod_nonneg (t * c.R) (ne_of_gt hpos)) with h0 | h0
    · have hd : N ∣ t * c.R := Int.dvd_of_emod_eq_zero h0.symm
      rw [Int.tmod_eq_zero_of_dvd hd]
      exact ⟨by linarith, le_rfl⟩
    · have hneg : t * c.R < 0 := mul_neg_of_neg_of_pos ht hv.R_pos
      exact tmod_neg_range hneg hpos

/-- Instance of the amended C8 at `N = 13`, `t = -1`. -/
theorem into_any_integer_witness :
    (13 : Int) % 2 = 1 ∧ (0 : Int) < 13 ∧
    ∃ c, Mtgy.new 13 = some c ∧ c.R = (2 : Int) ^ mpz_sizeinbase2 13 ∧
      c.into (-1) ≡ -1 * c.R [ZMOD 13] ∧
      ((0 : Int) ≤ -1 → 0 ≤ c.into (-1) ∧ c.into (-1) < 13 ∧
        c.into (-1) = (-1 * c.R) % 13) ∧
      ((-1 : Int) < 0 → -13 < c.into (-1) ∧ c.into (-1) ≤ 0) :=
  ⟨by decide, by decide, into_any_integer 13 (-1) (by decide) (by decide)⟩

/-- C9 (range of the domain transforms). For every odd modulus `N > 0` and every
integer `v ≥ 0`, both `into v` and `escape v` lie in `[0, N)`, and `escape (into v)`
equals `v mod N`. -/
theorem into_escape_range (N v : Int) (hodd : N % 2 = 1) (hpos : 0 < N) (hv0 : 0 ≤ v) :
    ∃ c, Mtgy.new N = some c ∧
      (0 ≤ c.into v ∧ c.into v < N) ∧
      (0 ≤ c.escape v ∧ c.escape v < N) ∧
      c.escape (c.into v) = v % N := by
  obtain ⟨c, hc, hv⟩ := new_spec N hodd hpos
  exact ⟨c, hc, hv.into_range hv0, hv.escape_range hv0, hv.escape_into hv0⟩

/-- Instance of C9 at `N = 13`, `v = 100`. -/
theorem into_escape_range_witness :
    (13 : Int) % 2 = 1 ∧ (0 : Int) < 13 ∧
    ∃ c, Mtgy.new 13 = some c ∧
      (0 ≤ c.into 100 ∧ c.into 100 < 13) ∧
      (0 ≤ c.escape 100 ∧ c.escape 100 < 13) ∧
      c.escape (c.into 100) = 100 % 13 :=
  ⟨by decide, by decide, into_escape_range 13 100 (by decide) (by decide) (by decide)⟩

/-- C10 (radix bracket). For every odd modulus `N > 0` the constructed context has
`R = 2 ^ k` with `k = n_size = bitLength N`, `2 ^ (k - 1) ≤ N < 2 ^ k`, hence
`N < R ≤ 2 * N`, and `gcd (R, N) = 1`. -/
theorem radix_bracket (N : Int) (hodd : N % 2 = 1) (hpos : 0 < N) :
    ∃ c, Mtgy.new N = some c ∧ c.N = N ∧
      c.n_size = mpz_sizeinbase2 N ∧ c.R = (2 : Int) ^ c.n_size ∧
      (2 : Int) ^ (c.n_size - 1) ≤ N ∧ N < (2 : Int) ^ c.n_size ∧
      N < c.R ∧ c.R ≤ 2 * N ∧ Int.gcd c.R N = 1 := by
  obtain ⟨c, hc, hv⟩ := new_spec N hodd hpos
  have hhi := hv.hi
  have hlo := hv.lo
  refine ⟨c, hc, hv.hN, hv.hsize, hv.hR, ?_, hhi, ?_, ?_, ?_⟩
  · cases hk : c.n_size with
    | zero =>
      rw [hk] at hhi
      simp at hhi
      omega
    | succ j =>
      rw [hk, pow_succ] at hlo
      simp only [Nat.add_sub_cancel]
      linarith
  · rw [hv.hR]; exact hhi
  · rw [hv.hR]; exact hlo
  · rw [hv.hR]
    exact Int.isCoprime_iff_gcd_eq_one.mp (isCoprime_two_pow_of_odd N _ hodd)

/-- Instance of C10 at `N = 13`. -/
theorem radix_bracket_witness :
    (13 : Int) % 2 = 1 ∧ (0 : Int) < 13 ∧
    ∃ c, Mtgy.new 13 = some c ∧ c.N = 13 ∧
      c.n_size = mpz_sizeinbase2 13 ∧ c.R = (2 : Int) ^ c.n_size ∧
      (2 : Int) ^ (c.n_size - 1) ≤ 13 ∧ 13 < (2 : Int) ^ c.n_size ∧
      13 < c.R ∧ c.R ≤ 2 * 13 ∧ Int.gcd c.R 13 = 1 :=
  ⟨by decide, by decide, radix_bracket 13 (by decide) (by decide)⟩

theorem Valid.mul_lt {c : Mtgy} {n : Int} (hv : Valid c n) {a b : Int}
    (ha1 : a < n) (hb0 : 0 ≤ b) (hb1 : b < n) : a * b < n * c.R := by
  have h1 : a * b ≤ n * b := mul_le_mul_of_nonneg_right ha1.le hb0
  have h2 : n * b < n * c.R := by
    apply mul_lt_mul_of_pos_left _ hv.pos
    have := hv.hi
    rw [← hv.hR] at this
    linarith
  linarith

/-! ## Inside `redc` -/

theorem redc_eq_ite (c : Mtgy) (t : Int) :
    c.redc t = if c.redc_u t ≥ c.N then c.redc_u t - c.N else c.redc_u t := rfl

theorem Valid.redc_m_eq {c : Mtgy} {n : Int} (hv : Valid c n) (t : Int) :
    c.redc_m t = ((t % c.R) * c.N_invert) % c.R := by
  unfold Mtgy.redc_m mpz_mod_2exp
  rw [hv.hR]

theorem Valid.redc_m_range {c : Mtgy} {n : Int} (hv : Valid c n) (t : Int) :
    0 ≤ c.redc_m t ∧ c.redc_m t < c.R := by
  rw [hv.hR]
  exact ⟨mpz_mod_2exp_nonneg _ _, mpz_mod_2exp_lt _ _⟩

theorem Valid.redc_u_mul {c : Mtgy} {n : Int} (hv : Valid c n) (t : Int) :
    c.R * c.redc_u t = c.redc_m t * n + t := by
  obtain ⟨u, hu, hsh⟩ := hv.redc_shift t
  have h : c.redc_u t = u := hsh
  rw [h, ← hu, hv.hN]
  rfl

theorem Valid.redc_u_nonneg {c : Mtgy} {n : Int} (hv : Valid c n) {t : Int} (ht : 0 ≤ t) :
    0 ≤ c.redc_u t := by
  have h := hv.redc_u_mul t
  have hm := (hv.redc_m_range t).1
  have hR := hv.R_pos
  by_contra hneg
  have h1 : c.R * c.redc_u t < 0 := mul_neg_of_pos_of_neg hR (not_le.mp hneg)
  have h2 : 0 ≤ c.redc_m t * n := mul_nonneg hm hv.pos.le
  linarith

theorem Valid.redc_u_lt {c : Mtgy} {n : Int} (hv : Valid c n) {t : Int}
    (ht : t < n * c.R) : c.redc_u t < 2 * n := by
  have h := hv.redc_u_mul t
  have hm := (hv.redc_m_range t).2
  have hR := hv.R_pos
  by_contra hge
  have h1 : c.R * (2 * n) ≤ c.R * c.redc_u t :=
    mul_le_mul_of_nonneg_left (not_lt.mp hge) hR.le
  have h2 : c.redc_m t * n < c.R * n := mul_lt_mul_of_pos_right hm hv.pos
  linarith

theorem Valid.redc_nonneg {c : Mtgy} {n : Int} (hv : Valid c n) {t : Int} (ht : 0 ≤ t) :
    0 ≤ c.redc t := by
  have hu := hv.redc_u_nonneg ht
  rw [redc_eq_ite]
  by_cases hge : c.redc_u t ≥ c.N
  · rw [if_pos hge]; linarith
  · rw [if_neg hge]; exact hu

theorem Valid.redc_mul_R {c : Mtgy} {n : Int} (hv : Valid c n) (t : Int) :
    c.redc t * c.R ≡ t [ZMOD n] := by
  have h := hv.redc_u_mul t
  rw [redc_eq_ite, hv.hN]
  by_cases hge : c.redc_u t ≥ n
  · rw [if_pos hge]
    have e : (c.redc_u t - n) * c.R = t + n * (c.redc_m t - c.R) := by
      linear_combination h
    rw [e]
    show (t + n * (c.redc_m t - c.R)) % n = t % n
    rw [Int.add_mul_emod_self_left]
  · rw [if_neg hge]
    have e : c.redc_u t * c.R = t + n * c.redc_m t := by
      linear_combination h
    rw [e]
    show (t + n * c.redc_m t) % n = t % n
    rw [Int.add_mul_emod_self_left]

/-! ## The claims on `redc` and `mul` -/

/-- C12 (the shift of REDC is exact). For every odd modulus `N > 0` and every integer
`t ≥ 0`, with `m = ((t mod R) * N_invert) mod R` as computed in `redc`, the sum
`t + m * N` is divisible by `R = 2 ^ n_size`, and the right shift by `n_size` bits is
the exact quotient `(t + m * N) / R`: shifting back gives the sum again. -/
theorem redc_shift_exact (N t : Int) (hodd : N % 2 = 1) (hpos : 0 < N) (_ht : 0 ≤ t) :
    ∃ c, Mtgy.new N = some c ∧ c.R = (2 : Int) ^ c.n_size ∧
      c.redc_m t = ((t % c.R) * c.N_invert) % c.R ∧
      c.R ∣ t + c.redc_m t * c.N ∧
      (t + c.redc_m t * c.N) % c.R = 0 ∧
      (c.redc_m t * c.N + t) >>> c.n_size = (t + c.redc_m t * c.N) / c.R ∧
      ((c.redc_m t * c.N + t) >>> c.n_size) * (2 : Int) ^ c.n_size
        = t + c.redc_m t * c.N := by
  obtain ⟨c, hc, hv⟩ := new_spec N hodd hpos
  have h := hv.redc_u_mul t
  have hR := hv.R_pos
  have hsum : t + c.redc_m t * c.N = c.R * c.redc_u t := by
    rw [hv.hN]; linarith
  have hdvd : c.R ∣ t + c.redc_m t * c.N := ⟨c.redc_u t, hsum⟩
  refine ⟨c, hc, hv.hR, hv.redc_m_eq t, hdvd, Int.emod_eq_zero_of_dvd hdvd, ?_, ?_⟩
  · rw [hsum, Int.mul_ediv_cancel_left _ (ne_of_gt hR)]
    rfl
  · rw [← hv.hR, hsum, mul_comm]
    rfl

/-- Instance of C12 at `N = 13`, `t = 49`. -/
theorem redc_shift_exact_witness :
    (13 : Int) % 2 = 1 ∧ (0 : Int) < 13 ∧ (0 : Int) ≤ 49 ∧
    ∃ c, Mtgy.new 13 = some c ∧ c.R = (2 : Int) ^ c.n_size ∧
      c.redc_m 49 = ((49 % c.R) * c.N_invert) % c.R ∧
      c.R ∣ 49 + c.redc_m 49 * c.N ∧
      (49 + c.redc_m 49 * c.N) % c.R = 0 ∧
      (c.redc_m 49 * c.N + 49) >>> c.n_size = (49 + c.redc_m 49 * c.N) / c.R ∧
      ((c.redc_m 49 * c.N + 49) >>> c.n_size) * (2 : Int) ^ c.n_size
        = 49 + c.redc_m 49 * c.N :=
  ⟨by decide, by decide, by decide,
   redc_shift_exact 13 49 (by decide) (by decide) (by decide)⟩

/-- C13 (bound before the correction). For every odd modulus `N > 0` and every `t` with
`0 ≤ t < N * R`, the value `u = (t + m * N) >> n_size` held in `redc` just before the
comparison with `N` satisfies `0 ≤ u < 2 * N`. -/
theorem redc_pre_correction_bound (N t : Int) (hodd : N % 2 = 1) (hpos : 0 < N)
    (ht0 : 0 ≤ t) (ht1 : t < N * (2 : Int) ^ mpz_sizeinbase2 N) :
    ∃ c, Mtgy.new N = some c ∧ c.R = (2 : Int) ^ mpz_sizeinbase2 N ∧
      (0 ≤ c.redc_u t ∧ c.redc_u t < 2 * N) ∧
      c.redc t = (if c.redc_u t ≥ N then c.redc_u t - N else c.redc_u t) ∧
      (∀ a b : Int, 0 ≤ a → a < N → 0 ≤ b → b < N →
        0 ≤ c.redc_u (a * b) ∧ c.redc_u (a * b) < 2 * N) := by
  obtain ⟨c, hc, hv⟩ := new_spec N hodd hpos
  have hR : c.R = (2 : Int) ^ mpz_sizeinbase2 N := by rw [hv.hR, hv.hsize]
  rw [← hR] at ht1
  refine ⟨c, hc, hR, ⟨hv.redc_u_nonneg ht0, hv.redc_u_lt ht1⟩, ?_, ?_⟩
  · rw [redc_eq_ite, hv.hN]
  · intro a b ha0 ha1 hb0 hb1
    exact ⟨hv.redc_u_nonneg (mul_nonneg ha0 hb0), hv.redc_u_lt (hv.mul_lt ha1 hb0 hb1)⟩

/-- Instance of C13 at `N = 13`, `t = 12 * 12`. -/
theorem redc_pre_correction_bound_witness :
    (13 : Int) % 2 = 1 ∧ (0 : Int) < 13 ∧ (0 : Int) ≤ 144 ∧
    (144 : Int) < 13 * (2 : Int) ^ mpz_sizeinbase2 13 ∧
    ∃ c, Mtgy.new 13 = some c ∧ c.R = (2 : Int) ^ mpz_sizeinbase2 13 ∧
      (0 ≤ c.redc_u 144 ∧ c.redc_u 144 < 2 * 13) ∧
      c.redc 144 = (if c.redc_u 144 ≥ 13 then c.redc_u 144 - 13 else c.redc_u 144) ∧
      (∀ a b : Int, 0 ≤ a → a < 13 → 0 ≤ b → b < 13 →
        0 ≤ c.redc_u (a * b) ∧ c.redc_u (a * b) < 2 * 13) :=
  ⟨by decide, by decide, by decide, by decide,
   redc_pre_correction_bound 13 144 (by decide) (by decide) (by decide) (by decide)⟩

/-- C14 (REDC agrees with the division-based exit). For every odd modulus `N > 0` and
every `t` with `0 ≤ t < N * R`, `redc t` equals `escape t`, which is
`(t * R_invert) mod N`. -/
theorem redc_eq_escape (N t : Int) (hodd : N % 2 = 1) (hpos : 0 < N) (ht0 : 0 ≤ t)
    (ht1 : t < N * (2 : Int) ^ mpz_sizeinbase2 N) :
    ∃ c, Mtgy.new N = some c ∧ c.R = (2 : Int) ^ mpz_sizeinbase2 N ∧
      c.redc t = c.escape t ∧ c.escape t = (t * c.R_invert) % N := by
  obtain ⟨c, hc, hv⟩ := new_spec N hodd hpos
  have hR : c.R = (2 : Int) ^ mpz_sizeinbase2 N := by rw [hv.hR, hv.hsize]
  rw [← hR] at ht1
  refine ⟨c, hc, hR, ?_, hv.escape_eq ht0⟩
  rw [hv.redc_eq ht0 ht1, hv.escape_eq ht0]

/-- Instance of C14 at `N = 13`, `t = 144`. -/
theorem redc_eq_escape_witness :
    (13 : Int) % 2 = 1 ∧ (0 : Int) < 13 ∧ (0 : Int) ≤ 144 ∧
    (144 : Int) < 13 * (2 : Int) ^ mpz_sizeinbase2 13 ∧
    ∃ c, Mtgy.new 13 = some c ∧ c.R = (2 : Int) ^ mpz_sizeinbase2 13 ∧
      c.redc 144 = c.escape 144 ∧ c.escape 144 = (144 * c.R_invert) % 13 :=
  ⟨by decide, by decide, by decide, by decide,
   redc_eq_escape 13 144 (by decide) (by decide) (by decide) (by decide)⟩

/-- C15 (the congruence survives operands that are not reduced). For every odd modulus
`N > 0` and all integers `a, b ≥ 0`, the result `r` of `mul (a, b)` is non-negative and
`r * R` is congruent to `a * b` modulo `N`. -/
theorem mul_congruence_unreduced (N a b : Int) (hodd : N % 2 = 1) (hpos : 0 < N)
    (ha : 0 ≤ a) (hb : 0 ≤ b) :
    ∃ c, Mtgy.new N = some c ∧ 0 ≤ c.mul a b ∧ c.mul a b * c.R ≡ a * b [ZMOD N] := by
  obtain ⟨c, hc, hv⟩ := new_spec N hodd hpos
  exact ⟨c, hc, hv.redc_nonneg (mul_nonneg ha hb), hv.redc_mul_R (a * b)⟩

/-- Instance of C15 at `N = 13`, `a = b = 100`. -/
theorem mul_congruence_unreduced_witness :
    (13 : Int) % 2 = 1 ∧ (0 : Int) < 13 ∧
    ∃ c, Mtgy.new 13 = some c ∧ 0 ≤ c.mul 100 100 ∧
      c.mul 100 100 * c.R ≡ 100 * 100 [ZMOD 13] :=
  ⟨by decide, by decide,
   mul_congruence_unreduced 13 100 100 (by decide) (by decide) (by decide) (by decide)⟩

/-- C16 (one correction is not enough for operands that are not reduced). There are an
odd modulus `N > 0` and non-negative `a`, `b`, not both below `N`, for which `mul (a, b)`
returns a value `r ≥ N`: with `N = 13` and `a = b = 100` the result is `612`. -/
theorem mul_unreduced_exceeds_modulus :
    (∃ c, Mtgy.new 13 = some c ∧ c.mul 100 100 = 612 ∧ c.N ≤ c.mul 100 100) ∧
    ∃ N a b : Int, N % 2 = 1 ∧ 0 < N ∧ 0 ≤ a ∧ 0 ≤ b ∧ ¬ (a < N ∧ b < N) ∧
      ∃ c, Mtgy.new N = some c ∧ N ≤ c.mul a b :=
  ⟨⟨⟨13, 11, 16, 9, 4⟩, by decide, by decide, by decide⟩,
   13, 100, 100, by decide, by decide, by decide, by decide, by decide,
   ⟨13, 11, 16, 9, 4⟩, by decide, by decide⟩

/-- C17 (the Montgomery one is the identity of `mul`). For every odd modulus `N > 0`
and every `a` in `[0, N)`, `mul (a, into 1) = a` and `mul (into 1, a) = a`. -/
theorem mul_into_one (N a : Int) (hodd : N % 2 = 1) (hpos : 0 < N)
    (ha0 : 0 ≤ a) (ha1 : a < N) :
    ∃ c, Mtgy.new N = some c ∧ c.mul a (c.into 1) = a ∧ c.mul (c.into 1) a = a := by
  obtain ⟨c, hc, hv⟩ := new_spec N hodd hpos
  obtain ⟨h0, h1⟩ := hv.into_range (t := 1) (by decide)
  have key : c.mul a (c.into 1) = a := by
    rw [hv.mul_eq ha0 ha1 h0 h1, hv.into_eq (by decide), one_mul]
    have e1 : a * (c.R % N) * c.R_invert ≡ a * c.R * c.R_invert [ZMOD N] :=
      ((Int.mod_modEq c.R N).mul_left a).mul_right _
    have e2 : a * c.R * c.R_invert ≡ a * 1 [ZMOD N] := by
      rw [mul_assoc]
      exact hv.R_mul_inv.mul_left a
    rw [mul_one] at e2
    have e3 : (a * (c.R % N) * c.R_invert) % N = a % N := e1.trans e2
    rw [e3]
    exact Int.emod_eq_of_lt ha0 ha1
  refine ⟨c, hc, key, ?_⟩
  have hcomm : c.mul (c.into 1) a = c.mul a (c.into 1) := by
    unfold Mtgy.mul
    rw [mul_comm]
  rw [hcomm]
  exact key

/-- Instance of C17 at `N = 13`, `a = 7`. -/
theorem mul_into_one_witness :
    (13 : Int) % 2 = 1 ∧ (0 : Int) < 13 ∧
    ∃ c, Mtgy.new 13 = some c ∧ c.mul 7 (c.into 1) = 7 ∧ c.mul (c.into 1) 7 = 7 :=
  ⟨by decide, by decide,
   mul_into_one 13 7 (by decide) (by decide) (by decide) (by decide)⟩

/-- C18 (`mul` is commutative and associative on reduced operands). For every odd
modulus `N > 0` and all `a`, `b`, `c` in `[0, N)`, `mul (a, b) = mul (b, a)` and
`mul (mul (a, b), c) = mul (a, mul (b, c))`. -/
theorem mul_comm_assoc (N a b d : Int) (hodd : N % 2 = 1) (hpos : 0 < N)
    (ha0 : 0 ≤ a) (ha1 : a < N) (hb0 : 0 ≤ b) (hb1 : b < N) (hd0 : 0 ≤ d) (hd1 : d < N) :
    ∃ c, Mtgy.new N = some c ∧ c.mul a b = c.mul b a ∧
      c.mul (c.mul a b) d = c.mul a (c.mul b d) := by
  obtain ⟨c, hc, hv⟩ := new_spec N hodd hpos
  refine ⟨c, hc, ?_, ?_⟩
  · unfold Mtgy.mul
    rw [mul_comm]
  · obtain ⟨hab0, hab1⟩ := hv.mul_range ha0 ha1 hb0 hb1
    obtain ⟨hbd0, hbd1⟩ := hv.mul_range hb0 hb1 hd0 hd1
    rw [hv.mul_eq hab0 hab1 hd0 hd1, hv.mul_eq ha0 ha1 hbd0 hbd1,
      hv.mul_eq ha0 ha1 hb0 hb1, hv.mul_eq hb0 hb1 hd0 hd1]
    have e1 : (a * b * c.R_invert) % N * d * c.R_invert
        ≡ a * b * c.R_invert * d * c.R_invert [ZMOD N] :=
      ((Int.mod_modEq _ N).mul_right d).mul_right _
    have e2 : a * ((b * d * c.R_invert) % N) * c.R_invert
        ≡ a * (b * d * c.R_invert) * c.R_invert [ZMOD N] :=
      ((Int.mod_modEq _ N).mul_left a).mul_right _
    have e3 : a * b * c.R_invert * d * c.R_invert
        = a * (b * d * c.R_invert) * c.R_invert := by ring
    rw [e3] at e1
    exact e1.trans e2.symm

/-- Instance of C18 at `N = 13`, `a = 7`, `b = 11`, `c = 12`. -/
theorem mul_comm_assoc_witness :
    (13 : Int) % 2 = 1 ∧ (0 : Int) < 13 ∧
    ∃ c, Mtgy.new 13 = some c ∧ c.mul 7 11 = c.mul 11 7 ∧
      c.mul (c.mul 7 11) 12 = c.mul 7 (c.mul 11 12) :=
  ⟨by decide, by decide,
   mul_comm_assoc 13 7 11 12 (by decide) (by decide) (by decide) (by decide) (by decide)
     (by decide) (by decide) (by decide)⟩

/-! ## The example driver -/

theorem Valid.pow_mod_loop_spec {c : Mtgy} {n : Int} (hv : Valid c n) (a u : Int)
    (ha : 0 ≤ a) : ∀ (fuel j : Nat) (i : Int) (e calls : Nat), i + j = u → j ≤ fuel →
    pow_mod_loop c (c.into a) u fuel i ((a ^ e * c.R) % n) calls
      = some ((a ^ (e + j) * c.R) % n, calls + j) := by
  intro fuel
  induction fuel with
  | zero =>
    intro j i e calls hij hj
    have hj0 : j = 0 := by omega
    subst hj0
    have hi : ¬ i < u := by simp at hij; omega
    simp [pow_mod_loop, hi]
  | succ f ih =>
    intro j i e calls hij hj
    cases j with
    | zero =>
      have hi : ¬ i < u := by simp at hij; omega
      simp [pow_mod_loop, hi]
    | succ k =>
      have hi : i < u := by push_cast at hij; omega
      have hstep : c.mul ((a ^ e * c.R) % n) (c.into a) = (a ^ (e + 1) * c.R) % n := by
        rw [← hv.into_eq (pow_nonneg ha e), hv.mul_into (pow_nonneg ha e) ha, pow_succ]
      have hrec := ih k (i + 1) (e + 1) (calls + 1) (by push_cast at hij; omega) (by omega)
      unfold pow_mod_loop
      rw [if_pos hi, hstep, hrec]
      have h1 : e + 1 + k = e + (k + 1) := by omega
      have h2 : calls + 1 + k = calls + (k + 1) := by omega
      rw [h1, h2]

/-- C11 (`pow_mod_example` is modular exponentiation). For every odd modulus `m > 0`
and all integers `a ≥ 0`, `u ≥ 0`, the loop of `pow_mod_example (a, u, m)` ends after
exactly `u` calls of `mul` (any fuel of at least `u` iterations is enough), and the
function returns `(a ^ u) mod m`; for `u = 0` that is `1 mod m`. -/
theorem pow_mod_example_correct (fuel : Nat) (a u m : Int) (hodd : m % 2 = 1)
    (hpos : 0 < m) (ha : 0 ≤ a) (hu : 0 ≤ u) (hfuel : u.toNat ≤ fuel) :
    pow_mod_example_counted fuel a u m = some (a ^ u.toNat % m, u.toNat) ∧
    pow_mod_example fuel a u m = some (a ^ u.toNat % m) ∧
    (u = 0 → pow_mod_example fuel a u m = some (1 % m)) := by
  obtain ⟨c, hc, hv⟩ := new_spec m hodd hpos
  have hne : m ≠ 0 := ne_of_gt hpos
  have hone : c.into 1 = (a ^ 0 * c.R) % m := by
    rw [hv.into_eq (by decide), pow_zero]
  have hloop := hv.pow_mod_loop_spec a u ha fuel u.toNat 0 0 0
    (by rw [Int.toNat_of_nonneg hu, zero_add]) hfuel
  rw [← hone, Nat.zero_add] at hloop
  have hesc : c.escape ((a ^ u.toNat * c.R) % m) = a ^ u.toNat % m := by
    rw [hv.escape_eq (Int.emod_nonneg _ hne)]
    exact hv.inv_cancel _
  have hcounted : pow_mod_example_counted fuel a u m = some (a ^ u.toNat % m, u.toNat) := by
    unfold pow_mod_example_counted
    simp only [hc, hloop, hesc]
  have hres : pow_mod_example fuel a u m = some (a ^ u.toNat % m) := by
    unfold pow_mod_example
    rw [hcounted]
    rfl
  refine ⟨hcounted, hres, ?_⟩
  intro hu0
  rw [hres, hu0]
  rfl

/-- Instances of C11 from the test table: `(15, 117, 17)` gives `2` after `117` calls
of `mul`, and `(21251, 12415, 222221)` gives `213559` after `12415` calls. -/
theorem pow_mod_example_correct_witness :
    ((17 : Int) % 2 = 1 ∧ (0 : Int) < 17 ∧ (0 : Int) ≤ 15 ∧ (0 : Int) ≤ 117 ∧
      (117 : Int).toNat ≤ 117 ∧
      pow_mod_example_counted 117 15 117 17 = some (2, 117) ∧
      pow_mod_example 117 15 117 17 = some 2) ∧
    ((222221 : Int) % 2 = 1 ∧ (0 : Int) < 222221 ∧ (0 : Int) ≤ 21251 ∧
      (0 : Int) ≤ 12415 ∧ (12415 : Int).toNat ≤ 12415 ∧
      pow_mod_example_counted 12415 21251 12415 222221 = some (213559, 12415) ∧
      pow_mod_example 12415 21251 12415 222221 = some 213559) := by
  have h1 := pow_mod_example_correct 117 15 117 17 (by decide) (by decide) (by decide)
    (by decide) (by decide)
  have h2 := pow_mod_example_correct 12415 21251 12415 222221 (by decide) (by decide)
    (by decide) (by decide) (by decide)
  have e1 : (15 : Int) ^ (117 : Int).toNat % 17 = 2 := by
    have : (117 : Int).toNat = 117 := rfl
    rw [this]; norm_num
  have e2 : (21251 : Int) ^ (12415 : Int).toNat % 222221 = 213559 := by
    have : (12415 : Int).toNat = 12415 := rfl
    rw [this]; norm_num
  have t1 : (117 : Int).toNat = 117 := rfl
  have t2 : (12415 : Int).toNat = 12415 := rfl
  rw [e1, t1] at h1
  rw [e2, t2] at h2
  exact ⟨⟨by decide, by decide, by decide, by decide, by decide, h1.1, h1.2.1⟩,
    ⟨by decide, by decide, by decide, by decide, by decide, h2.1, h2.2.1⟩⟩

/-! ## The helper `floor_log2` -/

theorem floor_log2_spec : ∀ (fuel x : Nat), 1 ≤ x → x < 2 ^ 32 → x < 2 ^ fuel →
    ∃ e, floor_log2 fuel x = some e ∧ 2 ^ e ≤ x ∧ x < 2 ^ (e + 1) := by
  intro fuel
  induction fuel with
  | zero => intro x h1 _ h3; simp at h3; omega
  | succ f ih =>
    intro x h1 h2 h3
    by_cases hx : x = 1
    · subst hx
      exact ⟨0, by simp [floor_log2], by simp, by simp⟩
    · have hshift : x >>> 1 = x / 2 := by
        rw [Nat.shiftRight_eq_div_pow, pow_one]
      have h3b : x < 2 ^ f * 2 := by rw [← pow_succ]; exact h3
      obtain ⟨r, hr, hlo, hhi⟩ := ih (x / 2) (by omega) (by omega) (by omega)
      have hr32 : r < 32 := by
        have hlt : 2 ^ r < 2 ^ 32 := lt_of_le_of_lt hlo (by omega)
        exact (Nat.pow_lt_pow_iff_right (by decide)).mp hlt
      have hmod : (1 + r) % 2 ^ 32 = 1 + r := Nat.mod_eq_of_lt (by omega)
      refine ⟨1 + r, ?_, ?_, ?_⟩
      · simp only [floor_log2, hx, if_false, hshift, hr, Option.map_some', hmod]
      · have e1 : 2 ^ (1 + r) = 2 * 2 ^ r := by rw [Nat.add_comm, pow_succ, Nat.mul_comm]
        rw [e1]
        omega
      · have e2 : 2 ^ (1 + r + 1) = 2 * 2 ^ (r + 1) := by
          rw [Nat.add_comm 1 r, pow_succ, Nat.mul_comm]
        rw [e2]
        omega

/-- C19 (`floor_log2` is the floor of the base-2 logarithm). For every unsigned 32-bit
`x ≥ 1` the recursion of `floor_log2 x` ends (a depth of 32 is enough: for `x ≠ 1` the
argument `x >> 1` is at least `1` and strictly below `x`) and returns the unique `e`
with `2 ^ e ≤ x < 2 ^ (e + 1)`. -/
theorem floor_log2_correct (fuel x : Nat) (hfuel : 32 ≤ fuel) (hx1 : 1 ≤ x)
    (hx2 : x < 2 ^ 32) :
    ∃ e, floor_log2 fuel x = some e ∧ e ≤ 31 ∧ 2 ^ e ≤ x ∧ x < 2 ^ (e + 1) ∧
      (∀ k, 2 ^ k ≤ x → x < 2 ^ (k + 1) → k = e) ∧
      (x ≠ 1 → 1 ≤ x >>> 1 ∧ x >>> 1 < x) := by
  have hpow : 2 ^ 32 ≤ 2 ^ fuel := Nat.pow_le_pow_right (by decide) hfuel
  obtain ⟨e, he, hlo, hhi⟩ := floor_log2_spec fuel x hx1 hx2 (lt_of_lt_of_le hx2 hpow)
  have he32 : e < 32 :=
    (Nat.pow_lt_pow_iff_right (by decide)).mp (lt_of_le_of_lt hlo hx2)
  refine ⟨e, he, by omega, hlo, hhi, ?_, ?_⟩
  · intro k hk1 hk2
    have h1 : k < e + 1 :=
      (Nat.pow_lt_pow_iff_right (by decide)).mp (lt_of_le_of_lt hk1 hhi)
    have h2 : e < k + 1 :=
      (Nat.pow_lt_pow_iff_right (by decide)).mp (lt_of_le_of_lt hlo hk2)
    omega
  · intro hne
    rw [Nat.shiftRight_eq_div_pow, pow_one]
    omega

/-- Instance of C19 at `x = 13` with recursion depth `32`. -/
theorem floor_log2_correct_witness :
    32 ≤ 32 ∧ 1 ≤ 13 ∧ 13 < 2 ^ 32 ∧
    ∃ e, floor_log2 32 13 = some e ∧ e ≤ 31 ∧ 2 ^ e ≤ 13 ∧ 13 < 2 ^ (e + 1) ∧
      (∀ k, 2 ^ k ≤ 13 → 13 < 2 ^ (k + 1) → k = e) ∧
      (13 ≠ 1 → 1 ≤ 13 >>> 1 ∧ 13 >>> 1 < 13) :=
  ⟨by decide, by decide, by decide,
   floor_log2_correct 32 13 (by decide) (by decide) (by decide)⟩

end MtgyGMP
